import Mathlib

/-!
# Verification of the lmdb partition-lifecycle layer

Shallow embedding of the partition registry (`StoreManager`), the typed
partition accessor (`PartitionManager`), and the day-bucketed allocator
(`DayPartitionManager`) of the repository, together with proofs about the
behaviour claimed by the specification.

The underlying LMDB engine is external to the repository; it is modelled
abstractly: the environment state is the set of sub-database names present
on disk, opening a sub-database registers its name on disk, `drop` removes
the name and its data, and `close` releases the in-process handle (an
oracle boolean models whether the engine call succeeds).
-/

namespace LmdbVerify

/-- Errors surfaced by the registry and allocator layers (section 7 of the
specification's taxonomy, restricted to the kinds the code can raise). -/
inductive Err where
  | alreadyExists
  | notFound
  | notOpenable
  | closeFailed
  | dropFailed
  | futureTimestamp
  | outOfRetention
  | invalidRetention
  deriving DecidableEq, Repr

instance {ε α : Type} [DecidableEq ε] [DecidableEq α] : DecidableEq (Except ε α) := fun a b =>
  match a, b with
  | .error x, .error y =>
    if h : x = y then isTrue (by rw [h]) else isFalse (by simp [h])
  | .error _, .ok _ => isFalse (by simp)
  | .ok _, .error _ => isFalse (by simp)
  | .ok x, .ok y =>
    if h : x = y then isTrue (by rw [h]) else isFalse (by simp [h])

/-- State of one `StoreManager`: the sub-database names present in the
LMDB environment (`disk`) and the names tracked open in the in-memory
registry map `partitions`. -/
structure StoreState where
  disk : List String
  partitions : List String
  deriving DecidableEq, Repr

/-- The reserved metadata partition name (`'_metadata'` in
`src/core/StoreManager.ts`). -/
def metadataName : String := "_metadata"

/-- `Map.set` semantics of the registry map: keys are unique, setting an
existing key replaces its value (here values are just the names). -/
def insertName (n : String) (l : List String) : List String :=
  if n ∈ l then l else n :: l

/-- `new StoreManager(options)`: opens the environment at a path whose disk
already holds the names `pre`, and eagerly opens the reserved metadata
partition (which creates it on disk); the registry map starts empty. -/
def mkStore (pre : List String) : StoreState :=
  { disk := (metadataName :: pre).dedup, partitions := [] }

/-- `StoreManager.createPartition(name, options)`: fails with AlreadyExists
if the name exists on disk or is the reserved metadata name; otherwise the
new sub-database is opened (creating it on disk) and tracked. -/
def createPartition (name : String) (s : StoreState) : StoreState × Except Err Unit :=
  if name ∈ s.disk ∨ name = metadataName then
    (s, .error .alreadyExists)
  else
    ({ disk := name :: s.disk, partitions := insertName name s.partitions }, .ok ())

/-- `StoreManager.openPartition(name, options)`: rejects the reserved
metadata name; returns the cached handle when tracked; fails with NotFound
when the name is absent from disk; otherwise opens and tracks it. -/
def openPartition (name : String) (s : StoreState) : StoreState × Except Err Unit :=
  if name = metadataName then
    (s, .error .notOpenable)
  else if name ∈ s.partitions then
    (s, .ok ())
  else if name ∈ s.disk then
    ({ s with partitions := insertName name s.partitions }, .ok ())
  else
    (s, .error .notFound)

/-- `StoreManager.closePartition(name)`: fails with NotFound when the name
is not tracked; otherwise closes the underlying handle (`closeOk` models
whether the engine close succeeds — on failure the code rethrows a
close-failure error) and in both cases removes the registry entry in the
`finally` block. -/
def closePartition (name : String) (closeOk : Bool) (s : StoreState) :
    StoreState × Except Err Unit :=
  if name ∈ s.partitions then
    ({ s with partitions := s.partitions.erase name },
     if closeOk then .ok () else .error .closeFailed)
  else
    (s, .error .notFound)

/-- `StoreManager.dropPartition(name)` as implemented in
`src/core/StoreManager.ts`: the signature has NO confirmation parameter;
when the name is tracked open the backing data is destroyed at once
(`dropOk` models whether the engine drop succeeds) and the registry entry
is removed in the `finally` block. -/
def dropPartition (name : String) (dropOk : Bool) (s : StoreState) :
    StoreState × Except Err Unit :=
  if name ∈ s.partitions then
    if dropOk then
      ({ disk := s.disk.erase name, partitions := s.partitions.erase name }, .ok ())
    else
      ({ s with partitions := s.partitions.erase name }, .error .dropFailed)
  else
    (s, .error .notFound)

/-- `StoreManager.listPartitions()`: all sub-database names known to the
environment except the reserved metadata name. -/
def listPartitions (s : StoreState) : List String :=
  s.disk.filter (fun key => key ≠ metadataName)

/-- The registry states reachable from construction through the public
partition-lifecycle operations. -/
inductive Reachable : StoreState → Prop where
  | init (pre : List String) : Reachable (mkStore pre)
  | create (s : StoreState) (n : String) :
      Reachable s → Reachable (createPartition n s).1
  | openP (s : StoreState) (n : String) :
      Reachable s → Reachable (openPartition n s).1
  | close (s : StoreState) (n : String) (closeOk : Bool) :
      Reachable s → Reachable (closePartition n closeOk s).1
  | drop (s : StoreState) (n : String) (dropOk : Bool) :
      Reachable s → Reachable (dropPartition n dropOk s).1

/-- Structural invariant of the registry: the metadata partition is on disk
and never tracked in the partitions map, tracked names are backed by disk,
and both name collections are duplicate-free. -/
def StoreInv (s : StoreState) : Prop :=
  metadataName ∈ s.disk ∧
  metadataName ∉ s.partitions ∧
  (∀ n ∈ s.partitions, n ∈ s.disk) ∧
  s.disk.Nodup ∧
  s.partitions.Nodup

/-- A call made to the engine's `put` entry point: either the two-argument
unconditional form or the versioned form carrying a version stamp and an
optional `ifVersion` conditional-write guard. -/
inductive EnginePutCall (K V : Type) where
  | plain (key : K) (value : V)
  | versioned (key : K) (value : V) (version : Int) (ifVersion : Option Int)
  deriving DecidableEq, Repr

/-- `PartitionManager.putAsync(key, value, version?, ifVersion?)` from
`src/core/PartitionManager.ts`: the engine's versioned put is issued only
when `version !== undefined`; otherwise the plain two-argument put is
issued, whatever `ifVersion` was. -/
def putAsync {K V : Type} (key : K) (value : V)
    (version : Option Int) (ifVersion : Option Int) : EnginePutCall K V :=
  match version with
  | some v => .versioned key value v ifVersion
  | none => .plain key value

/-- Insert-or-replace of a key's (value, version) cell in the engine model. -/
def upsert {K V : Type} [DecidableEq K] (db : List (K × V × Int)) (k : K) (v : V)
    (ver : Int) : List (K × V × Int) :=
  (k, v, ver) :: db.filter (fun e => e.1 ≠ k)

/-- Version currently stored for a key in the engine model. -/
def storedVersion {K V : Type} [DecidableEq K] (db : List (K × V × Int)) (k : K) :
    Option Int :=
  (db.find? (fun e => e.1 = k)).map (fun e => e.2.2)

/-- Engine semantics of a put call (modelled from the engine's documented
contract): a plain put writes unconditionally; a versioned put with an
`ifVersion` guard writes only when the stored version equals the guard,
returning `false` without writing otherwise. -/
def applyPut {K V : Type} [DecidableEq K] (db : List (K × V × Int)) :
    EnginePutCall K V → List (K × V × Int) × Bool
  | .plain k v => (upsert db k v 0, true)
  | .versioned k v ver ifv =>
    match ifv with
    | none => (upsert db k v ver, true)
    | some w => if storedVersion db k = some w then (upsert db k v ver, true) else (db, false)

/-!
## Civil-calendar model

`DayPartitionManager.daySuffix` reads the UTC year, month and day from a
JavaScript `Date`. ECMAScript defines these accessors over the proleptic
Gregorian calendar with day 0 = 1970-01-01; the model below is the
standard civil-from-days decomposition of that calendar (426-year eras of
146097 days starting on a leap-cycle March 1), evaluated on the day number
`floor(tsSec / 86400)`.
-/

/-- Year-of-era (0..399, March-based) of a day-of-era. -/
def yoeOf (doe : Nat) : Nat :=
  (doe - doe / 1460 + doe / 36524 - doe / 146096) / 365

/-- First day-of-era of a March-based year-of-era. -/
def yearStart (yoe : Nat) : Nat :=
  365 * yoe + yoe / 4 - yoe / 100

/-- Day-of-year (0 = March 1) of a day-of-era. -/
def doyOf (doe : Nat) : Nat :=
  doe - yearStart (yoeOf doe)

/-- Shifted month index (0 = March .. 11 = February) of a day-of-year. -/
def mpOfDoy (doy : Nat) : Nat :=
  (5 * doy + 2) / 153

/-- Day-of-month (1..31) of a day-of-year. -/
def dayOfDoy (doy : Nat) : Nat :=
  doy - (153 * mpOfDoy doy + 2) / 5 + 1

/-- Civil month (1..12) of a day-of-year. -/
def monthOfDoy (doy : Nat) : Nat :=
  if mpOfDoy doy < 10 then mpOfDoy doy + 3 else mpOfDoy doy - 9

/-- Within-year encoding of (civil-year carry, month, day): January and
February belong to the next civil year, folded in as a 10000 offset. -/
def wVal (doy : Nat) : Nat :=
  (if monthOfDoy doy ≤ 2 then 10000 else 0) + monthOfDoy doy * 100 + dayOfDoy doy

/-- Civil (proleptic Gregorian) date of a day number counted from
1970-01-01: the year, month and day that ECMAScript's `getUTCFullYear`,
`getUTCMonth() + 1` and `getUTCDate` return for that day. -/
def civilFromDays (z : Int) : Int × Nat × Nat :=
  let era := (z + 719468) / 146097
  let doe := (z + 719468 - era * 146097).toNat
  let yoe := yoeOf doe
  let doy := doyOf doe
  let m := monthOfDoy doy
  let d := dayOfDoy doy
  ((if m ≤ 2 then (yoe : Int) + 1 else (yoe : Int)) + era * 400, m, d)

/-- Numeric YYYYMMDD-style encoding of a civil date, used to compare dates. -/
def ymdNum (p : Int × Nat × Nat) : Int :=
  p.1 * 10000 + (p.2.1 : Int) * 100 + (p.2.2 : Int)

/-!
## Decimal strings

`daySuffix` builds `y + mm + dd` with JavaScript number-to-string
conversion and `padStart(2, '0')`; the helpers below model the decimal
representation of numbers as character lists.
-/

/-- The decimal digit character for a digit value 0..9. -/
def digitChar (n : Nat) : Char :=
  match n with
  | 0 => '0' | 1 => '1' | 2 => '2' | 3 => '3' | 4 => '4'
  | 5 => '5' | 6 => '6' | 7 => '7' | 8 => '8' | _ => '9'

/-- Little-endian base-10 digits, computed with explicit fuel so that the
definition is structurally recursive (the fuel `n` always suffices). -/
def digitsLE : Nat → Nat → List Nat
  | 0, _ => []
  | _ + 1, 0 => []
  | fuel + 1, n + 1 => (n + 1) % 10 :: digitsLE fuel ((n + 1) / 10)

/-- Decimal representation of a natural number, most significant digit
first — the character list of JavaScript's `String(n)`. -/
def natStr (n : Nat) : List Char :=
  if n = 0 then ['0'] else ((digitsLE n n).reverse.map digitChar)

/-- Character list of JavaScript's `String(i)` for an integer. -/
def intStr (i : Int) : List Char :=
  if i < 0 then '-' :: natStr i.natAbs else natStr i.toNat

/-- `String(n).padStart(2, '0')` for the month/day components. -/
def pad2 (n : Nat) : List Char :=
  if n < 10 then '0' :: natStr n else natStr n

/-- Numeric value of a decimal digit character. -/
def charVal (c : Char) : Nat :=
  c.toNat - 48

/-- Whether a character is an ASCII decimal digit (the prune regular
expression's character class). -/
def isDigitC (c : Char) : Bool :=
  decide (48 ≤ c.toNat) && decide (c.toNat ≤ 57)

/-- Numeric value of a most-significant-first decimal character list. -/
def listVal (l : List Char) : Nat :=
  l.foldl (fun a c => 10 * a + charVal c) 0

/-- JavaScript string comparison `a < b` (code-unit lexicographic order). -/
def strLtB : List Char → List Char → Bool
  | [], [] => false
  | [], _ :: _ => true
  | _ :: _, [] => false
  | a :: as, b :: bs =>
    if a.toNat < b.toNat then true
    else if b.toNat < a.toNat then false
    else strLtB as bs

/-!
## DayPartitionManager

Model of `src/plugins/DayPartitionManager.ts`. The allocator's own state is
its local name cache (`Map<string, Partition>` keys) next to the shared
`StoreState`; `Date.now()` is passed in explicitly as `nowSec`.
-/

/-- `DayPartitionManager.dayRange(tsSec)`: start and end (inclusive) of the
UTC day bucket containing the timestamp. -/
def dayRange (tsSec : Int) : Int × Int :=
  (tsSec / 86400 * 86400, tsSec / 86400 * 86400 + 86400 - 1)

/-- `DayPartitionManager.daySuffix(tsSec)`: the `YYYYMMDD` character list of
the UTC date of the timestamp. -/
def daySuffix (tsSec : Int) : List Char :=
  match civilFromDays (tsSec / 86400) with
  | (y, m, d) => intStr y ++ pad2 m ++ pad2 d

/-- `DayPartitionManager.partitionName(tsSec)`: prefix and day suffix joined
by an underscore. -/
def partitionName (pfx : String) (tsSec : Int) : String :=
  pfx ++ "_" ++ ⟨daySuffix tsSec⟩

/-- `DayPartitionManager.assertInRetention(tsSec)`: with the `-1` sentinel
all timestamps pass; otherwise a timestamp in a later UTC day than now is
a FutureTimestamp and one at least `maxDaysRetention` days back is
OutOfRetention. -/
def assertInRetention (maxDaysRetention : Int) (nowSec tsSec : Int) : Except Err Unit :=
  if maxDaysRetention = -1 then .ok ()
  else if nowSec / 86400 < tsSec / 86400 then .error .futureTimestamp
  else if maxDaysRetention ≤ nowSec / 86400 - tsSec / 86400 then .error .outOfRetention
  else .ok ()

/-- Strip an expected leading character sequence, returning the remainder. -/
def stripPfx : List Char → List Char → Option (List Char)
  | [], rest => some rest
  | _ :: _, [] => none
  | p :: ps, c :: cs => if p = c then stripPfx ps cs else none

/-- The match of the prune regular expression `^<prefix>_(\d{8})$` against a
partition name: the captured 8-digit day suffix, when the name matches. -/
def dayNameSfx (pfx : String) (name : String) : Option (List Char) :=
  match stripPfx (pfx.data ++ ['_']) name.data with
  | none => none
  | some rest =>
    if rest.length = 8 ∧ rest.all isDigitC then some rest else none

/-- Whether a prune pass over names drops this name: it matches the day
pattern and its captured suffix compares lexicographically below the
cutoff suffix (the loop keeps names with `m[1] >= cutoff`). -/
def droppedByPrune (pfx : String) (cutoff : List Char) (name : String) : Bool :=
  match dayNameSfx pfx name with
  | none => false
  | some sfx => strLtB sfx cutoff

/-- One iteration of the prune loop: a matching stale name is opened
through the registry, its backing data dropped, and the name evicted from
the allocator's local cache in the `finally` block. -/
def pruneStep (pfx : String) (cutoff : List Char) (acc : StoreState × List String)
    (name : String) : StoreState × List String :=
  if droppedByPrune pfx cutoff name then
    let s1 := (openPartition name acc.1).1
    ({ disk := s1.disk.erase name, partitions := s1.partitions }, acc.2.erase name)
  else acc

/-- `DayPartitionManager.pruneOldPartitions()`: no-op while a prune is in
flight or when retention is disabled; otherwise every listed name matching
`<prefix>_<8-digit-day>` with suffix below the cutoff (today minus
`maxDaysRetention - 1` days) is dropped and evicted from the local cache. -/
def pruneOldPartitions (nowSec maxDaysRetention : Int) (pfx : String)
    (s : StoreState) (cache : List String) (isPruning : Bool) :
    StoreState × List String :=
  if isPruning ∨ maxDaysRetention ≤ 0 then (s, cache)
  else
    (listPartitions s).foldl
      (pruneStep pfx (daySuffix (nowSec - (maxDaysRetention - 1) * 86400))) (s, cache)

/-- `DayPartitionManager.getPartition(tsSec, create)`: validates retention,
returns the cached handle when present, otherwise opens through the
registry; when opening throws and `create` is set, creates the partition
and triggers a prune pass; a handle obtained either way is cached. -/
def getPartition (maxDaysRetention : Int) (pfx : String) (nowSec tsSec : Int)
    (create : Bool) (s : StoreState) (cache : List String) :
    StoreState × List String × Except Err (Option String) :=
  match assertInRetention maxDaysRetention nowSec tsSec with
  | .error e => (s, cache, .error e)
  | .ok () =>
    let name := partitionName pfx tsSec
    if name ∈ cache then (s, cache, .ok (some name))
    else
      match openPartition name s with
      | (s1, .ok ()) => (s1, insertName name cache, .ok (some name))
      | (_, .error _) =>
        if create then
          match createPartition name s with
          | (s2, .ok ()) =>
            let pr := pruneOldPartitions nowSec maxDaysRetention pfx s2 cache false
            (pr.1, insertName name pr.2, .ok (some name))
          | (s2, .error e) => (s2, cache, .error e)
        else (s, cache, .ok none)

/-!
## Registry invariants and lifecycle theorems
-/

theorem storeInv_init (pre : List String) : StoreInv (mkStore pre) := by
  refine ⟨?_, ?_, ?_, ?_, ?_⟩
  · simp [mkStore, List.mem_dedup]
  · simp [mkStore]
  · simp [mkStore]
  · exact List.nodup_dedup _
  · simp [mkStore]

theorem storeInv_insertName (n : String) (l : List String) (h : l.Nodup) :
    (insertName n l).Nodup := by
  unfold insertName
  by_cases hm : n ∈ l
  · simpa [hm] using h
  · simpa [hm] using List.nodup_cons.mpr ⟨hm, h⟩

theorem mem_insertName (x n : String) (l : List String) :
    x ∈ insertName n l ↔ x = n ∨ x ∈ l := by
  unfold insertName
  by_cases hm : n ∈ l
  · simp only [hm, if_true]
    constructor
    · exact Or.inr
    · rintro (rfl | hx)
      · exact hm
      · exact hx
  · simp [hm]

theorem storeInv_preserved : ∀ s : StoreState, StoreInv s →
    (∀ n, StoreInv (createPartition n s).1) ∧
    (∀ n, StoreInv (openPartition n s).1) ∧
    (∀ n closeOk, StoreInv (closePartition n closeOk s).1) ∧
    (∀ n dropOk, StoreInv (dropPartition n dropOk s).1) := by
  intro s hs
  obtain ⟨hmd, hmp, hsub, hdn, hpn⟩ := hs
  refine ⟨?_, ?_, ?_, ?_⟩
  · intro n
    unfold createPartition
    by_cases hg : n ∈ s.disk ∨ n = metadataName
    · simpa [hg] using ⟨hmd, hmp, hsub, hdn, hpn⟩
    · push_neg at hg
      obtain ⟨hnd, hnm⟩ := hg
      have hnp : n ∉ s.partitions := fun hin => hnd (hsub n hin)
      simp only [hnd, hnm, or_self, if_false]
      refine ⟨List.mem_cons_of_mem _ hmd, ?_, ?_, ?_, storeInv_insertName n _ hpn⟩
      · intro hc
        rcases (mem_insertName _ _ _).mp hc with h1 | h1
        · exact hnm h1.symm
        · exact hmp h1
      · intro x hx
        rcases (mem_insertName _ _ _).mp hx with rfl | h1
        · exact List.mem_cons_self _ _
        · exact List.mem_cons_of_mem _ (hsub x h1)
      · exact List.nodup_cons.mpr ⟨hnd, hdn⟩
  · intro n
    unfold openPartition
    by_cases h1 : n = metadataName
    · simpa [h1] using ⟨hmd, hmp, hsub, hdn, hpn⟩
    · by_cases h2 : n ∈ s.partitions
      · simpa [h1, h2] using ⟨hmd, hmp, hsub, hdn, hpn⟩
      · by_cases h3 : n ∈ s.disk
        · simp only [h1, h2, h3, if_false, if_true]
          refine ⟨hmd, ?_, ?_, hdn, storeInv_insertName n _ hpn⟩
          · intro hc
            rcases (mem_insertName _ _ _).mp hc with hh | hh
            · exact h1 hh.symm
            · exact hmp hh
          · intro x hx
            rcases (mem_insertName _ _ _).mp hx with rfl | hh
            · exact h3
            · exact hsub x hh
        · simpa [h1, h2, h3] using ⟨hmd, hmp, hsub, hdn, hpn⟩
  · intro n closeOk
    unfold closePartition
    by_cases h2 : n ∈ s.partitions
    · simp only [h2, if_true]
      refine ⟨hmd, ?_, ?_, hdn, hpn.erase n⟩
      · intro hc
        exact hmp (List.mem_of_mem_erase hc)
      · intro x hx
        exact hsub x (List.mem_of_mem_erase hx)
    · simpa [h2] using ⟨hmd, hmp, hsub, hdn, hpn⟩
  · intro n dropOk
    unfold dropPartition
    by_cases h2 : n ∈ s.partitions
    · have hnm : n ≠ metadataName := fun h => hmp (h ▸ h2)
      by_cases h3 : dropOk
      · simp only [h2, h3, if_true]
        refine ⟨(List.mem_erase_of_ne (fun h => hnm h.symm)).mpr hmd, ?_, ?_, hdn.erase n, hpn.erase n⟩
        · intro hc
          exact hmp (List.mem_of_mem_erase hc)
        · intro x hx
          have hx1 := (hpn.mem_erase_iff).mp hx
          exact (List.mem_erase_of_ne hx1.1).mpr (hsub x hx1.2)
      · simp only [h2, h3, if_true, if_false]
        refine ⟨hmd, ?_, ?_, hdn, hpn.erase n⟩
        · intro hc
          exact hmp (List.mem_of_mem_erase hc)
        · intro x hx
          exact hsub x (List.mem_of_mem_erase hx)
    · simpa [h2] using ⟨hmd, hmp, hsub, hdn, hpn⟩

theorem storeInv_reachable {s : StoreState} (h : Reachable s) : StoreInv s := by
  induction h with
  | init pre => exact storeInv_init pre
  | create s n _ ih => exact (storeInv_preserved s ih).1 n
  | openP s n _ ih => exact (storeInv_preserved s ih).2.1 n
  | close s n closeOk _ ih => exact (storeInv_preserved s ih).2.2.1 n closeOk
  | drop s n dropOk _ ih => exact (storeInv_preserved s ih).2.2.2 n dropOk

/-- Claim C1, evaluation of the code at the failing input: the partition
`p` is created (tracked open, backed by disk), then `dropPartition p` is
called; the implemented signature has no confirmation parameter at all, so
no ConfirmationRequired failure is possible, and the call destroys the
backing data and the registry entry even though the caller never passed
`confirm = true`. -/
theorem dropPartition_drops_without_confirmation :
    (createPartition "p" (mkStore [])).1.partitions = ["p"] ∧
    "p" ∈ (createPartition "p" (mkStore [])).1.disk ∧
    dropPartition "p" true (createPartition "p" (mkStore [])).1 =
      ({ disk := [metadataName], partitions := [] }, Except.ok ()) := by
  decide

/-- Claim C2: when a `createPartition` call succeeded, a second call with
the same name fails with AlreadyExists and leaves the state (registry and
store) unchanged; and `createPartition` of the reserved metadata name
always fails with AlreadyExists, leaving any state unchanged. -/
theorem createPartition_duplicate_and_reserved_fail (s : StoreState) (name : String)
    (h : (createPartition name s).2 = Except.ok ()) :
    (createPartition name (createPartition name s).1).2 = Except.error Err.alreadyExists ∧
    (createPartition name (createPartition name s).1).1 = (createPartition name s).1 ∧
    (∀ t : StoreState, (createPartition metadataName t).2 = Except.error Err.alreadyExists ∧
      (createPartition metadataName t).1 = t) := by
  by_cases hg : name ∈ s.disk ∨ name = metadataName
  · rw [createPartition, if_pos hg] at h
    exact absurd h (by simp)
  · have hfst : (createPartition name s).1 =
        { disk := name :: s.disk, partitions := insertName name s.partitions } := by
      rw [createPartition, if_neg hg]
    have hmem : name ∈ (createPartition name s).1.disk := by
      rw [hfst]
      exact List.mem_cons_self _ _
    refine ⟨?_, ?_, ?_⟩
    · rw [createPartition, if_pos (Or.inl hmem)]
    · rw [createPartition, if_pos (Or.inl hmem)]
    · intro t
      rw [createPartition, if_pos (Or.inr rfl)]
      exact ⟨rfl, rfl⟩

theorem createPartition_duplicate_and_reserved_fail_witness :
    (createPartition "users" (createPartition "users" (mkStore [])).1).2 =
      Except.error Err.alreadyExists ∧
    (createPartition "users" (createPartition "users" (mkStore [])).1).1 =
      (createPartition "users" (mkStore [])).1 :=
  ⟨(createPartition_duplicate_and_reserved_fail (mkStore []) "users" (by decide)).1,
   (createPartition_duplicate_and_reserved_fail (mkStore []) "users" (by decide)).2.1⟩

/-- Claim C3: in any reachable registry state, `openPartition` of a name
that was never created — absent from disk and not tracked open — fails
with NotFound and leaves the state, in particular the registry map,
unchanged. -/
theorem openPartition_never_created_notFound (s : StoreState) (name : String)
    (hr : Reachable s) (h1 : name ∉ s.disk) (h2 : name ∉ s.partitions) :
    openPartition name s = (s, Except.error Err.notFound) := by
  have hinv := storeInv_reachable hr
  have hnm : name ≠ metadataName := fun h => h1 (h ▸ hinv.1)
  rw [openPartition, if_neg hnm, if_neg h2, if_neg h1]

theorem openPartition_never_created_notFound_witness :
    openPartition "ghost" (mkStore []) = (mkStore [], Except.error Err.notFound) :=
  openPartition_never_created_notFound (mkStore []) "ghost" (Reachable.init [])
    (by decide) (by decide)

/-- Claim C4: in every reachable registry state the reserved metadata name
is excluded from `listPartitions()`, even though the metadata partition
exists in the underlying environment from construction onward. -/
theorem listPartitions_never_contains_metadata (s : StoreState) (hr : Reachable s) :
    metadataName ∉ listPartitions s ∧ metadataName ∈ s.disk := by
  constructor
  · intro hmem
    have := List.of_mem_filter hmem
    simp at this
  · exact (storeInv_reachable hr).1

theorem listPartitions_never_contains_metadata_witness :
    metadataName ∉ listPartitions (mkStore ["users"]) ∧
      metadataName ∈ (mkStore ["users"]).disk :=
  listPartitions_never_contains_metadata (mkStore ["users"]) (Reachable.init ["users"])

/-- Claim C5, counterexample: with partition `p` tracked open, a
`closePartition p` call whose underlying engine close fails surfaces a
close-failure error to the caller — the failure is rethrown, not swallowed
log-and-continue as the claim states. -/
theorem closePartition_close_failure_is_fatal :
    (closePartition "p" false (createPartition "p" (mkStore [])).1).2 =
      Except.error Err.closeFailed ∧
    (closePartition "p" false (createPartition "p" (mkStore [])).1).2 ≠
      Except.ok () := by
  decide

/-- Claim C5 as amended: for a tracked name, `closePartition` removes the
registry entry whether the underlying close succeeds or fails (so the
registry never retains a reference to a closed handle), and the on-disk
data is untouched; however a close failure is rethrown to the caller as a
close-failure error rather than being swallowed. -/
theorem closePartition_always_removes_entry (s : StoreState) (name : String)
    (closeOk : Bool) (hr : Reachable s) (h : name ∈ s.partitions) :
    name ∉ (closePartition name closeOk s).1.partitions ∧
    (closePartition name closeOk s).1.disk = s.disk ∧
    (closePartition name closeOk s).2 =
      (if closeOk then Except.ok () else Except.error Err.closeFailed) := by
  have hinv := storeInv_reachable hr
  rw [closePartition, if_pos h]
  refine ⟨?_, rfl, rfl⟩
  intro hc
  exact ((hinv.2.2.2.2.mem_erase_iff).mp hc).1 rfl

theorem closePartition_always_removes_entry_witness :
    "p" ∉ (closePartition "p" false (createPartition "p" (mkStore [])).1).1.partitions ∧
    (closePartition "p" false (createPartition "p" (mkStore [])).1).1.disk =
      (createPartition "p" (mkStore [])).1.disk ∧
    (closePartition "p" false (createPartition "p" (mkStore [])).1).2 =
      (if false then Except.ok () else Except.error Err.closeFailed) :=
  closePartition_always_removes_entry (createPartition "p" (mkStore [])).1 "p" false
    (Reachable.create (mkStore []) "p" (Reachable.init [])) (by decide)

end LmdbVerify

namespace LmdbVerify

set_option maxRecDepth 4000 in
set_option maxHeartbeats 1000000 in
theorem daySweep : ∀ doy < 366,
    1 ≤ monthOfDoy doy ∧ monthOfDoy doy ≤ 12 ∧ 1 ≤ dayOfDoy doy ∧ dayOfDoy doy ≤ 31 ∧
    wVal doy ≤ 10229 ∧ (doy + 1 < 366 → wVal doy < wVal (doy + 1)) := by decide

set_option maxRecDepth 4000 in
set_option maxHeartbeats 1000000 in
theorem yearSweep : ∀ y < 400, yoeOf (yearStart y) = y ∧ yoeOf (yearStart (y + 1) - 1) = y := by
  decide

theorem yoeOf_le_succ (a : Nat) : yoeOf a ≤ yoeOf (a + 1) := by
  have hnum : a - a / 1460 + a / 36524 - a / 146096 ≤
      (a + 1) - (a + 1) / 1460 + (a + 1) / 36524 - (a + 1) / 146096 := by
    omega
  exact Nat.div_le_div_right hnum

theorem yoeOf_mono {a b : Nat} (h : a ≤ b) : yoeOf a ≤ yoeOf b :=
  monotone_nat_of_le_succ yoeOf_le_succ h

theorem yoeOf_eq_of_bracket {y doe : Nat} (hy : y < 400)
    (h1 : yearStart y ≤ doe) (h2 : doe < yearStart (y + 1)) : yoeOf doe = y := by
  have hs := yearSweep y hy
  have hlow : y ≤ yoeOf doe := hs.1 ▸ yoeOf_mono h1
  have hup : yoeOf doe ≤ y := by
    have := yoeOf_mono (show doe ≤ yearStart (y + 1) - 1 by omega)
    omega
  omega

theorem bracket_exists : ∀ yy ≤ 400, ∀ doe, doe < yearStart yy →
    ∃ y, y < 400 ∧ yearStart y ≤ doe ∧ doe < yearStart (y + 1) := by
  intro yy
  induction yy with
  | zero =>
    intro _ doe hd
    simp [yearStart] at hd
  | succ yy ih =>
    intro hle doe hd
    by_cases hge : yearStart yy ≤ doe
    · exact ⟨yy, by omega, hge, hd⟩
    · exact ih (by omega) doe (by omega)

theorem yearStart_400 : yearStart 400 = 146096 := by decide

theorem doeFacts {doe : Nat} (h : doe ≤ 146096) :
    yearStart (yoeOf doe) ≤ doe ∧ doyOf doe ≤ 365 := by
  by_cases he : doe = 146096
  · subst he
    constructor
    · decide
    · decide
  · obtain ⟨y, hy, hb1, hb2⟩ := bracket_exists 400 (by omega) doe (by rw [yearStart_400]; omega)
    have heq := yoeOf_eq_of_bracket hy hb1 hb2
    have hlen : yearStart (y + 1) ≤ yearStart y + 366 := by
      unfold yearStart
      omega
    rw [doyOf, heq]
    omega

theorem natStep {doe : Nat} (h : doe < 146096) :
    yoeOf doe * 10000 + wVal (doyOf doe) < yoeOf (doe + 1) * 10000 + wVal (doyOf (doe + 1)) := by
  obtain ⟨y, hy, hb1, hb2⟩ := bracket_exists 400 (by omega) doe (by rw [yearStart_400]; omega)
  have heq := yoeOf_eq_of_bracket hy hb1 hb2
  have hdoy : doyOf doe = doe - yearStart y := by rw [doyOf, heq]
  by_cases hnext : doe + 1 < yearStart (y + 1)
  · -- same March-based year: the day-of-year increments
    have heq2 : yoeOf (doe + 1) = y := yoeOf_eq_of_bracket hy (by omega) hnext
    have hdoy2 : doyOf (doe + 1) = (doe - yearStart y) + 1 := by
      rw [doyOf, heq2]
      omega
    have hlen : yearStart (y + 1) ≤ yearStart y + 366 := by
      unfold yearStart
      omega
    have hlt : (doe - yearStart y) + 1 < 366 := by omega
    have := (daySweep (doe - yearStart y) (by omega)).2.2.2.2.2 hlt
    rw [heq, heq2, hdoy, hdoy2]
    omega
  · -- doe + 1 = yearStart (y + 1): a new year begins (or the era ends)
    have hstep : doe + 1 = yearStart (y + 1) := by omega
    have hw := (daySweep (doe - yearStart y) (by
      have hlen : yearStart (y + 1) ≤ yearStart y + 366 := by
        unfold yearStart
        omega
      omega)).2.2.2.2.1
    by_cases hfin : y + 1 < 400
    · have heq2 : yoeOf (doe + 1) = y + 1 := by
        rw [hstep]
        exact (yearSweep (y + 1) hfin).1
      have hdoy2 : doyOf (doe + 1) = 0 := by
        rw [doyOf, heq2, hstep]
        omega
      have hw0 : wVal 0 = 301 := by decide
      rw [heq, heq2, hdoy, hdoy2, hw0]
      omega
    · -- y = 399 and doe + 1 = 146096, the leap day closing the era
      have h399 : y = 399 := by omega
      subst h399
      have hys400 : yearStart (399 + 1) = 146096 := by decide
      have hdoe : doe = 146095 := by omega
      subst hdoe
      have he1 : yoeOf 146096 = 399 := by decide
      have he2 : doyOf 146096 = 365 := by decide
      have he0 : yoeOf 146095 = 399 := heq
      have he3 : doyOf 146095 = 364 := by decide
      have hstep2 : wVal 364 < wVal 365 := by
        have := (daySweep 364 (by omega)).2.2.2.2.2 (by omega)
        simpa using this
      rw [he0, he1, he2, he3]
      omega

theorem civilFromDays_def (z : Int) :
    civilFromDays z =
      ((if monthOfDoy (doyOf ((z + 719468 - (z + 719468) / 146097 * 146097).toNat)) ≤ 2
        then (yoeOf ((z + 719468 - (z + 719468) / 146097 * 146097).toNat) : Int) + 1
        else (yoeOf ((z + 719468 - (z + 719468) / 146097 * 146097).toNat) : Int)) +
        (z + 719468) / 146097 * 400,
       monthOfDoy (doyOf ((z + 719468 - (z + 719468) / 146097 * 146097).toNat)),
       dayOfDoy (doyOf ((z + 719468 - (z + 719468) / 146097 * 146097).toNat))) := rfl

theorem ymdNum_civil (z : Int) :
    ymdNum (civilFromDays z) =
      (z + 719468) / 146097 * 4000000 +
        ((yoeOf ((z + 719468 - (z + 719468) / 146097 * 146097).toNat) * 10000 +
          wVal (doyOf ((z + 719468 - (z + 719468) / 146097 * 146097).toNat)) : Nat) : Int) := by
  rw [civilFromDays_def]
  simp only [ymdNum, wVal]
  by_cases h : monthOfDoy (doyOf ((z + 719468 - (z + 719468) / 146097 * 146097).toNat)) ≤ 2
  · simp only [h, if_true]
    push_cast
    ring
  · simp only [h, if_false]
    push_cast
    ring

theorem doe_le (z : Int) : (z + 719468 - (z + 719468) / 146097 * 146097).toNat ≤ 146096 := by
  omega

theorem ymdNum_succ (z : Int) : ymdNum (civilFromDays z) < ymdNum (civilFromDays (z + 1)) := by
  have h1 := ymdNum_civil z
  have h2 := ymdNum_civil (z + 1)
  by_cases hend : (z + 719468 - (z + 719468) / 146097 * 146097).toNat = 146096
  · have hera2 : (z + 1 + 719468) / 146097 = (z + 719468) / 146097 + 1 := by omega
    have hdoe2 : (z + 1 + 719468 - ((z + 719468) / 146097 + 1) * 146097).toNat = 0 := by
      omega
    rw [h1, h2, hera2, hdoe2, hend]
    have c1 : yoeOf 146096 * 10000 + wVal (doyOf 146096) = 4000229 := by decide
    have c2 : yoeOf 0 * 10000 + wVal (doyOf 0) = 301 := by decide
    rw [c1, c2]
    omega
  · have hera2 : (z + 1 + 719468) / 146097 = (z + 719468) / 146097 := by omega
    have hdoe2 : (z + 1 + 719468 - (z + 719468) / 146097 * 146097).toNat =
        (z + 719468 - (z + 719468) / 146097 * 146097).toNat + 1 := by
      omega
    rw [h1, h2, hera2, hdoe2]
    have hstep := natStep
      (show (z + 719468 - (z + 719468) / 146097 * 146097).toNat < 146096 by
        have := doe_le z
        omega)
    omega

theorem ymdNum_lt_of_lt {z1 z2 : Int} (h : z1 < z2) :
    ymdNum (civilFromDays z1) < ymdNum (civilFromDays z2) := by
  have key : ∀ n : Nat, ymdNum (civilFromDays z1) < ymdNum (civilFromDays (z1 + 1 + n)) := by
    intro n
    induction n with
    | zero => simpa using ymdNum_succ z1
    | succ n ih =>
      have hs := ymdNum_succ (z1 + 1 + n)
      have harr : z1 + 1 + ((n : Nat) + 1 : Nat) = (z1 + 1 + n) + 1 := by push_cast; ring
      rw [harr]
      omega
  have hz : z2 = z1 + 1 + ((z2 - z1 - 1).toNat : Int) := by omega
  rw [hz]
  exact key _

theorem civilFromDays_inj {z1 z2 : Int} (h : civilFromDays z1 = civilFromDays z2) :
    z1 = z2 := by
  rcases lt_trichotomy z1 z2 with hlt | heq | hgt
  · have hn := ymdNum_lt_of_lt hlt
    rw [h] at hn
    exact absurd hn (lt_irrefl _)
  · exact heq
  · have hn := ymdNum_lt_of_lt hgt
    rw [h] at hn
    exact absurd hn (lt_irrefl _)

theorem civil_month_day_bounds (z : Int) :
    1 ≤ (civilFromDays z).2.1 ∧ (civilFromDays z).2.1 ≤ 12 ∧
    1 ≤ (civilFromDays z).2.2 ∧ (civilFromDays z).2.2 ≤ 31 := by
  have hm : (civilFromDays z).2.1 =
      monthOfDoy (doyOf ((z + 719468 - (z + 719468) / 146097 * 146097).toNat)) := by
    rw [civilFromDays_def]
  have hd : (civilFromDays z).2.2 =
      dayOfDoy (doyOf ((z + 719468 - (z + 719468) / 146097 * 146097).toNat)) := by
    rw [civilFromDays_def]
  have hdoy := (doeFacts (doe_le z)).2
  have hs := daySweep (doyOf ((z + 719468 - (z + 719468) / 146097 * 146097).toNat))
    (by omega)
  rw [hm, hd]
  exact ⟨hs.1, hs.2.1, hs.2.2.1, hs.2.2.2.1⟩

theorem civil_year_mono {z1 z2 : Int} (h : z1 ≤ z2) :
    (civilFromDays z1).1 ≤ (civilFromDays z2).1 := by
  rcases eq_or_lt_of_le h with rfl | hlt
  · exact le_refl _
  · have hnum := ymdNum_lt_of_lt hlt
    have b1 := civil_month_day_bounds z1
    have b2 := civil_month_day_bounds z2
    simp only [ymdNum] at hnum
    omega

end LmdbVerify
namespace LmdbVerify

/-! ### Decimal string lemmas -/

theorem digitsLE_eq : ∀ fuel n, n ≤ fuel → digitsLE fuel n = Nat.digits 10 n := by
  intro fuel
  induction fuel with
  | zero =>
    intro n h
    have hn : n = 0 := by omega
    subst hn
    simp [digitsLE]
  | succ fuel ih =>
    intro n h
    match n with
    | 0 => simp [digitsLE]
    | m + 1 =>
      have hstep : digitsLE (fuel + 1) (m + 1) = (m + 1) % 10 :: digitsLE fuel ((m + 1) / 10) := rfl
      rw [hstep, ih ((m + 1) / 10) (by omega),
        Nat.digits_def' (show (1 : Nat) < 10 by norm_num) (Nat.succ_pos m)]

theorem charVal_digitChar : ∀ d, d < 10 → charVal (digitChar d) = d := by decide

theorem digitChar_isDigit : ∀ d, d < 10 → isDigitC (digitChar d) = true := by decide

theorem natStr_eq {n : Nat} (h : n ≠ 0) :
    natStr n = (Nat.digits 10 n).reverse.map digitChar := by
  unfold natStr
  rw [if_neg h, digitsLE_eq n n le_rfl]

theorem natStr_digits (n : Nat) : ∀ c ∈ natStr n, isDigitC c = true := by
  by_cases h : n = 0
  · subst h
    intro c hc
    have : c = '0' := by simpa [natStr] using hc
    subst this
    decide
  · rw [natStr_eq h]
    intro c hc
    simp only [List.mem_map, List.mem_reverse] at hc
    obtain ⟨d, hd, rfl⟩ := hc
    exact digitChar_isDigit d (Nat.digits_lt_base (by norm_num) hd)

theorem listVal_foldl (l : List Char) : ∀ a : Nat,
    l.foldl (fun acc c => 10 * acc + charVal c) a = a * 10 ^ l.length + listVal l := by
  induction l with
  | nil =>
    intro a
    simp [listVal]
  | cons c t ih =>
    intro a
    have h1 := ih (10 * a + charVal c)
    have h2 := ih (10 * 0 + charVal c)
    simp only [listVal, List.foldl_cons, List.length_cons] at h1 h2 ⊢
    rw [h1, h2]
    ring

theorem listVal_cons (c : Char) (t : List Char) :
    listVal (c :: t) = charVal c * 10 ^ t.length + listVal t := by
  have h := listVal_foldl t (10 * 0 + charVal c)
  simp only [listVal, List.foldl_cons]
  rw [h]
  simp only [listVal]
  ring

theorem listVal_append (l1 l2 : List Char) :
    listVal (l1 ++ l2) = listVal l1 * 10 ^ l2.length + listVal l2 := by
  have h := listVal_foldl l2 (listVal l1)
  simp only [listVal] at h ⊢
  rw [List.foldl_append]
  exact h

theorem charVal_le_9 {c : Char} (h : isDigitC c = true) : charVal c ≤ 9 := by
  simp only [isDigitC, Bool.and_eq_true, decide_eq_true_eq] at h
  unfold charVal
  omega

theorem listVal_lt (l : List Char) (h : ∀ c ∈ l, isDigitC c = true) :
    listVal l < 10 ^ l.length := by
  induction l with
  | nil => simp [listVal]
  | cons c t ih =>
    have hcv := charVal_le_9 (h c (List.mem_cons_self c t))
    have ht := ih (fun x hx => h x (List.mem_cons_of_mem c hx))
    rw [listVal_cons]
    calc charVal c * 10 ^ t.length + listVal t
        < charVal c * 10 ^ t.length + 10 ^ t.length := Nat.add_lt_add_left ht _
      _ = (charVal c + 1) * 10 ^ t.length := by ring
      _ ≤ 10 * 10 ^ t.length := Nat.mul_le_mul_right _ (by omega)
      _ = 10 ^ (c :: t).length := by
          rw [List.length_cons]
          ring

theorem strLtB_irrefl (l : List Char) : strLtB l l = false := by
  induction l with
  | nil => rfl
  | cons c t ih => simp [strLtB, ih]

theorem strLtB_iff : ∀ (l1 l2 : List Char), l1.length = l2.length →
    (∀ c ∈ l1, isDigitC c = true) → (∀ c ∈ l2, isDigitC c = true) →
    (strLtB l1 l2 = true ↔ listVal l1 < listVal l2) := by
  intro l1
  induction l1 with
  | nil =>
    intro l2 hlen _ _
    match l2 with
    | [] => decide
    | c :: t => simp at hlen
  | cons a t1 ih =>
    intro l2 hlen h1 h2
    match l2 with
    | [] => simp at hlen
    | b :: t2 =>
      have hlen' : t1.length = t2.length := by simpa using hlen
      have ha := h1 a (List.mem_cons_self a t1)
      have hb := h2 b (List.mem_cons_self b t2)
      have hab : 48 ≤ a.toNat ∧ a.toNat ≤ 57 := by
        simpa [isDigitC, Bool.and_eq_true, decide_eq_true_eq] using ha
      have hbb : 48 ≤ b.toNat ∧ b.toNat ≤ 57 := by
        simpa [isDigitC, Bool.and_eq_true, decide_eq_true_eq] using hb
      have hv1 := listVal_cons a t1
      have hv2 := listVal_cons b t2
      have hpow : (10 : Nat) ^ t2.length = 10 ^ t1.length := by rw [hlen']
      have ht1 := listVal_lt t1 (fun x hx => h1 x (List.mem_cons_of_mem a hx))
      have ht2 := listVal_lt t2 (fun x hx => h2 x (List.mem_cons_of_mem b hx))
      by_cases hlt : a.toNat < b.toNat
      · have hs : strLtB (a :: t1) (b :: t2) = true := by
          simp [strLtB, hlt]
        rw [hs]
        simp only [true_iff]
        have hcv : charVal a + 1 ≤ charVal b := by
          unfold charVal
          omega
        calc listVal (a :: t1) = charVal a * 10 ^ t1.length + listVal t1 := hv1
          _ < charVal a * 10 ^ t1.length + 10 ^ t1.length := Nat.add_lt_add_left ht1 _
          _ = (charVal a + 1) * 10 ^ t1.length := by ring
          _ ≤ charVal b * 10 ^ t1.length := Nat.mul_le_mul_right _ hcv
          _ ≤ charVal b * 10 ^ t1.length + listVal t2 := Nat.le_add_right _ _
          _ = listVal (b :: t2) := by rw [hv2, hpow]
      · by_cases hgt : b.toNat < a.toNat
        · have hs : strLtB (a :: t1) (b :: t2) = false := by
            simp [strLtB, hlt, hgt]
          rw [hs]
          simp only [Bool.false_eq_true, false_iff, not_lt]
          have hcv : charVal b + 1 ≤ charVal a := by
            unfold charVal
            omega
          exact le_of_lt (calc listVal (b :: t2) = charVal b * 10 ^ t2.length + listVal t2 := hv2
            _ < charVal b * 10 ^ t2.length + 10 ^ t2.length := Nat.add_lt_add_left ht2 _
            _ = (charVal b + 1) * 10 ^ t2.length := by ring
            _ ≤ charVal a * 10 ^ t2.length := Nat.mul_le_mul_right _ hcv
            _ = charVal a * 10 ^ t1.length := by rw [hpow]
            _ ≤ charVal a * 10 ^ t1.length + listVal t1 := Nat.le_add_right _ _
            _ = listVal (a :: t1) := by rw [hv1])
        · have hcv : charVal a = charVal b := by
            unfold charVal
            omega
          have hs : strLtB (a :: t1) (b :: t2) = strLtB t1 t2 := by
            simp [strLtB, hlt, hgt]
          rw [hs, hv1, hv2, hpow, hcv,
            ih t2 hlen' (fun x hx => h1 x (List.mem_cons_of_mem a hx))
              (fun x hx => h2 x (List.mem_cons_of_mem b hx))]
          omega

theorem listVal_natStr (n : Nat) : listVal (natStr n) = n := by
  induction n using Nat.strong_induction_on with
  | _ n ih =>
    by_cases h0 : n = 0
    · subst h0
      decide
    · rw [natStr_eq h0,
        Nat.digits_def' (show (1 : Nat) < 10 by norm_num) (Nat.pos_of_ne_zero h0)]
      simp only [List.reverse_cons, List.map_append, List.map_cons, List.map_nil]
      rw [listVal_append]
      have hmod : listVal [digitChar (n % 10)] = n % 10 := by
        rw [listVal_cons]
        simp [listVal, charVal_digitChar (n % 10) (by omega)]
      rw [hmod]
      simp only [List.length_cons, List.length_nil, pow_one]
      by_cases hq : n / 10 = 0
      · rw [hq]
        simp only [Nat.digits_zero, List.reverse_nil, List.map_nil]
        have : listVal [] = 0 := rfl
        rw [this]
        omega
      · have hrec := ih (n / 10) (by omega)
        rw [natStr_eq hq] at hrec
        rw [hrec]
        omega

theorem natStr_inj {a b : Nat} (h : natStr a = natStr b) : a = b := by
  have h1 := listVal_natStr a
  rw [h, listVal_natStr b] at h1
  omega

theorem intStr_inj {a b : Int} (h : intStr a = intStr b) : a = b := by
  by_cases ha : a < 0 <;> by_cases hb : b < 0
  · rw [intStr, if_pos ha, intStr, if_pos hb] at h
    injection h with h1 h2
    have := natStr_inj h2
    omega
  · rw [intStr, if_pos ha, intStr, if_neg hb] at h
    have hmem : '-' ∈ natStr b.toNat := by
      rw [← h]
      exact List.mem_cons_self _ _
    have := natStr_digits b.toNat '-' hmem
    exact absurd this (by decide)
  · rw [intStr, if_neg ha, intStr, if_pos hb] at h
    have hmem : '-' ∈ natStr a.toNat := by
      rw [h]
      exact List.mem_cons_self _ _
    have := natStr_digits a.toNat '-' hmem
    exact absurd this (by decide)
  · rw [intStr, if_neg ha, intStr, if_neg hb] at h
    have := natStr_inj h
    omega

set_option maxRecDepth 4000 in
theorem pad2_len : ∀ n, n < 100 → (pad2 n).length = 2 := by decide

set_option maxRecDepth 4000 in
set_option maxHeartbeats 2000000 in
theorem pad2_inj : ∀ a, a < 100 → ∀ b, b < 100 → pad2 a = pad2 b → a = b := by decide

set_option maxRecDepth 4000 in
theorem pad2_digits : ∀ n, n < 100 → ∀ c ∈ pad2 n, isDigitC c = true := by decide

set_option maxRecDepth 4000 in
theorem listVal_pad2 : ∀ n, n < 100 → listVal (pad2 n) = n := by decide

theorem natStr_len4 {n : Nat} (h1 : 1000 ≤ n) (h2 : n ≤ 9999) : (natStr n).length = 4 := by
  rw [natStr_eq (by omega)]
  simp only [List.length_map, List.length_reverse]
  rw [Nat.digits_len 10 n (by norm_num) (by omega)]
  have hlog : Nat.log 10 n = 3 :=
    Nat.log_eq_of_pow_le_of_lt_pow (by norm_num; omega) (by norm_num; omega)
  omega

end LmdbVerify
namespace LmdbVerify

/-- Claim C6: for every timestamp `t` in seconds, `dayRange t` returns
`start = floor(t / 86400) * 86400` and `end = start + 86399`, and the
bracketing `start ≤ t ≤ end` always holds. -/
theorem dayRange_floor_and_brackets (t : Int) :
    (dayRange t).1 = t / 86400 * 86400 ∧
    (dayRange t).2 = (dayRange t).1 + 86399 ∧
    (dayRange t).1 ≤ t ∧ t ≤ (dayRange t).2 := by
  refine ⟨rfl, ?_, ?_, ?_⟩ <;> simp only [dayRange] <;> omega

theorem daySuffix_eq (t : Int) :
    daySuffix t = intStr (civilFromDays (t / 86400)).1 ++
      pad2 (civilFromDays (t / 86400)).2.1 ++ pad2 (civilFromDays (t / 86400)).2.2 := rfl

theorem suffix_decomp {y1 y2 : Int} {m1 d1 m2 d2 : Nat}
    (hm1 : m1 < 100) (hd1 : d1 < 100) (hm2 : m2 < 100) (hd2 : d2 < 100)
    (h : intStr y1 ++ pad2 m1 ++ pad2 d1 = intStr y2 ++ pad2 m2 ++ pad2 d2) :
    y1 = y2 ∧ m1 = m2 ∧ d1 = d2 := by
  rw [List.append_assoc, List.append_assoc] at h
  have hlen : (pad2 m1 ++ pad2 d1).length = (pad2 m2 ++ pad2 d2).length := by
    simp [List.length_append, pad2_len m1 hm1, pad2_len d1 hd1, pad2_len m2 hm2,
      pad2_len d2 hd2]
  obtain ⟨hy, hrest⟩ := List.append_inj' h hlen
  obtain ⟨hm, hd⟩ := List.append_inj' hrest (by simp [pad2_len d1 hd1, pad2_len d2 hd2])
  exact ⟨intStr_inj hy, pad2_inj m1 hm1 m2 hm2 hm, pad2_inj d1 hd1 d2 hd2 hd⟩

theorem daySuffix_inj_iff (t1 t2 : Int) :
    daySuffix t1 = daySuffix t2 ↔
      civilFromDays (t1 / 86400) = civilFromDays (t2 / 86400) := by
  constructor
  · intro h
    rw [daySuffix_eq, daySuffix_eq] at h
    have b1 := civil_month_day_bounds (t1 / 86400)
    have b2 := civil_month_day_bounds (t2 / 86400)
    obtain ⟨hy, hm, hd⟩ := suffix_decomp (by omega) (by omega) (by omega) (by omega) h
    have e1 : civilFromDays (t1 / 86400) =
        ((civilFromDays (t1 / 86400)).1, (civilFromDays (t1 / 86400)).2.1,
          (civilFromDays (t1 / 86400)).2.2) := rfl
    have e2 : civilFromDays (t2 / 86400) =
        ((civilFromDays (t2 / 86400)).1, (civilFromDays (t2 / 86400)).2.1,
          (civilFromDays (t2 / 86400)).2.2) := rfl
    rw [e1, e2, hy, hm, hd]
  · intro h
    rw [daySuffix_eq, daySuffix_eq, h]

theorem partitionName_data (pfx : String) (t1 t2 : Int) :
    partitionName pfx t1 = partitionName pfx t2 ↔ daySuffix t1 = daySuffix t2 := by
  constructor
  · intro h
    have hd := congrArg String.data h
    simp only [partitionName, String.data_append] at hd
    exact List.append_cancel_left hd
  · intro h
    unfold partitionName
    exact congrArg (fun l => pfx ++ "_" ++ (⟨l⟩ : String)) h

/-- Claim C7: two timestamps produce the same `partitionName` exactly when
they fall on the same UTC calendar day (the same civil year, month and day
triple); in particular timestamps on adjacent days always produce
different names. -/
theorem partitionName_eq_iff_same_day (pfx : String) (t1 t2 : Int) :
    (partitionName pfx t1 = partitionName pfx t2 ↔
      civilFromDays (t1 / 86400) = civilFromDays (t2 / 86400)) ∧
    (t2 / 86400 = t1 / 86400 + 1 → partitionName pfx t1 ≠ partitionName pfx t2) := by
  constructor
  · rw [partitionName_data pfx t1 t2, daySuffix_inj_iff]
  · intro hstep heq
    have hciv := (daySuffix_inj_iff t1 t2).mp ((partitionName_data pfx t1 t2).mp heq)
    have hlt := ymdNum_lt_of_lt (show t1 / 86400 < t2 / 86400 by omega)
    rw [hciv] at hlt
    exact absurd hlt (lt_irrefl _)

theorem partitionName_eq_iff_same_day_witness :
    partitionName "logs" 0 ≠ partitionName "logs" 86400 :=
  (partitionName_eq_iff_same_day "logs" 0 86400).2 (by decide)

end LmdbVerify
namespace LmdbVerify

/-- Claim C8: with retention `maxDaysRetention = 2` and "now" in day N,
`getPartition` for a timestamp in day N+1 fails with FutureTimestamp and
for a timestamp in day N-3 fails with OutOfRetention (both leaving the
store and cache untouched); a timestamp in day N-1 passes retention
validation; with the `-1` sentinel no timestamp is rejected. -/
theorem getPartition_retention_window (pfx : String) (nowSec tFut tOld tOk tAny : Int)
    (create : Bool) (s : StoreState) (cache : List String) :
    (tFut / 86400 = nowSec / 86400 + 1 →
      getPartition 2 pfx nowSec tFut create s cache =
        (s, cache, Except.error Err.futureTimestamp)) ∧
    (tOld / 86400 = nowSec / 86400 - 3 →
      getPartition 2 pfx nowSec tOld create s cache =
        (s, cache, Except.error Err.outOfRetention)) ∧
    (tOk / 86400 = nowSec / 86400 - 1 →
      assertInRetention 2 nowSec tOk = Except.ok ()) ∧
    assertInRetention (-1) nowSec tAny = Except.ok () := by
  refine ⟨?_, ?_, ?_, ?_⟩
  · intro h
    have ha : assertInRetention 2 nowSec tFut = Except.error Err.futureTimestamp := by
      unfold assertInRetention
      rw [if_neg (by omega), if_pos (by omega)]
    unfold getPartition
    rw [ha]
  · intro h
    have ha : assertInRetention 2 nowSec tOld = Except.error Err.outOfRetention := by
      unfold assertInRetention
      rw [if_neg (by omega), if_neg (by omega), if_pos (by omega)]
    unfold getPartition
    rw [ha]
  · intro h
    unfold assertInRetention
    rw [if_neg (by omega), if_neg (by omega), if_neg (by omega)]
  · unfold assertInRetention
    rw [if_pos rfl]

theorem getPartition_retention_window_witness :
    getPartition 2 "logs" 864000 950400 false (mkStore []) [] =
      (mkStore [], [], Except.error Err.futureTimestamp) ∧
    getPartition 2 "logs" 864000 604800 false (mkStore []) [] =
      (mkStore [], [], Except.error Err.outOfRetention) ∧
    assertInRetention 2 864000 777600 = Except.ok () ∧
    assertInRetention (-1) 864000 0 = Except.ok () :=
  ⟨(getPartition_retention_window "logs" 864000 950400 0 0 0 false (mkStore []) []).1
      (by decide),
   (getPartition_retention_window "logs" 864000 0 604800 0 0 false (mkStore []) []).2.1
      (by decide),
   (getPartition_retention_window "logs" 864000 0 0 777600 0 false (mkStore []) []).2.2.1
      (by decide),
   (getPartition_retention_window "logs" 864000 0 0 0 0 false (mkStore []) []).2.2.2⟩

/-- Claim C10: `putAsync` with `version = undefined` but `ifVersion`
supplied issues exactly the same unconditional engine put as a call with
key and value alone — the `ifVersion` guard is silently dropped and the
write happens regardless of the stored version; the guard is forwarded to
the engine only when `version` is also supplied. -/
theorem putAsync_drops_ifVersion_guard {K V : Type} [DecidableEq K]
    (key : K) (value : V) (w : Int) (db : List (K × V × Int)) :
    putAsync key value none (some w) = putAsync key value none none ∧
    putAsync key value none (some w) = EnginePutCall.plain key value ∧
    applyPut db (putAsync key value none (some w)) = (upsert db key value 0, true) ∧
    (∀ v : Int, putAsync key value (some v) (some w) =
      EnginePutCall.versioned key value v (some w)) :=
  ⟨rfl, rfl, rfl, fun _ => rfl⟩

theorem putAsync_drops_ifVersion_guard_witness :
    putAsync (1 : Nat) (10 : Nat) none (some 7) = putAsync 1 10 none none ∧
    applyPut [(1, 9, 3)] (putAsync (1 : Nat) (10 : Nat) none (some 7)) =
      (upsert [(1, 9, 3)] 1 10 0, true) :=
  ⟨(putAsync_drops_ifVersion_guard 1 10 7 [(1, 9, 3)]).1,
   (putAsync_drops_ifVersion_guard 1 10 7 [(1, 9, 3)]).2.2.1⟩

end LmdbVerify
namespace LmdbVerify

/-! ### Day-name suffix facts for pruning -/

theorem strMk_data (l : List Char) : (⟨l⟩ : String).data = l := rfl

theorem stripPfx_append : ∀ (a r : List Char), stripPfx a (a ++ r) = some r := by
  intro a
  induction a with
  | nil => intro r; rfl
  | cons c t ih =>
    intro r
    simp only [List.cons_append, stripPfx, if_pos rfl]
    exact ih r

theorem civil_year_le_of_day_le {z1 z2 : Int} (h : z1 ≤ z2) :
    (civilFromDays z1).1 ≤ (civilFromDays z2).1 := civil_year_mono h

theorem daySuffix_day_eq {t1 t2 : Int} (h : t1 / 86400 = t2 / 86400) :
    daySuffix t1 = daySuffix t2 := by
  rw [daySuffix_eq, daySuffix_eq, h]

theorem daySuffix_digits (t : Int) (hy : 0 ≤ (civilFromDays (t / 86400)).1) :
    ∀ c ∈ daySuffix t, isDigitC c = true := by
  have hb := civil_month_day_bounds (t / 86400)
  rw [daySuffix_eq]
  intro c hc
  rw [List.append_assoc] at hc
  rcases List.mem_append.mp hc with h1 | h2
  · rw [intStr, if_neg (by omega)] at h1
    exact natStr_digits _ c h1
  · rcases List.mem_append.mp h2 with h3 | h4
    · exact pad2_digits _ (by omega) c h3
    · exact pad2_digits _ (by omega) c h4

theorem daySuffix_len8 (t : Int) (h1 : 1000 ≤ (civilFromDays (t / 86400)).1)
    (h2 : (civilFromDays (t / 86400)).1 ≤ 9999) : (daySuffix t).length = 8 := by
  have hb := civil_month_day_bounds (t / 86400)
  rw [daySuffix_eq]
  simp only [List.length_append]
  rw [intStr, if_neg (by omega)]
  rw [natStr_len4 (by omega) (by omega),
    pad2_len _ (by omega), pad2_len _ (by omega)]

theorem listVal_daySuffix (t : Int) (hy : 0 ≤ (civilFromDays (t / 86400)).1) :
    (listVal (daySuffix t) : Int) = ymdNum (civilFromDays (t / 86400)) := by
  have hb := civil_month_day_bounds (t / 86400)
  rw [daySuffix_eq]
  rw [listVal_append, listVal_append]
  rw [intStr, if_neg (by omega)]
  rw [listVal_natStr, listVal_pad2 _ (by omega), listVal_pad2 _ (by omega),
    pad2_len _ (by omega), pad2_len _ (by omega)]
  simp only [ymdNum]
  push_cast
  have : ((civilFromDays (t / 86400)).1.toNat : Int) = (civilFromDays (t / 86400)).1 := by
    omega
  rw [this]
  ring

theorem daySuffix_ltB (t1 t2 : Int)
    (ha1 : 1000 ≤ (civilFromDays (t1 / 86400)).1)
    (ha2 : (civilFromDays (t1 / 86400)).1 ≤ 9999)
    (hb1 : 1000 ≤ (civilFromDays (t2 / 86400)).1)
    (hb2 : (civilFromDays (t2 / 86400)).1 ≤ 9999) :
    (strLtB (daySuffix t1) (daySuffix t2) = true ↔ t1 / 86400 < t2 / 86400) := by
  rw [strLtB_iff (daySuffix t1) (daySuffix t2)
    (by rw [daySuffix_len8 t1 ha1 ha2, daySuffix_len8 t2 hb1 hb2])
    (daySuffix_digits t1 (by omega)) (daySuffix_digits t2 (by omega))]
  have e1 := listVal_daySuffix t1 (by omega)
  have e2 := listVal_daySuffix t2 (by omega)
  constructor
  · intro h
    by_contra hcon
    push_neg at hcon
    rcases eq_or_lt_of_le hcon with heq | hlt
    · have hsame : daySuffix t2 = daySuffix t1 := daySuffix_day_eq heq
      rw [hsame] at h
      exact absurd h (lt_irrefl _)
    · have := ymdNum_lt_of_lt hlt
      omega
  · intro h
    have := ymdNum_lt_of_lt h
    omega

theorem pad2_getLast : ∀ n, n < 100 → ∃ c, (pad2 n).getLast? = some c ∧ isDigitC c = true := by
  decide

theorem daySuffix_getLast (t : Int) :
    ∃ c, (daySuffix t).getLast? = some c ∧ isDigitC c = true := by
  have hb := civil_month_day_bounds (t / 86400)
  obtain ⟨c, hc1, hc2⟩ := pad2_getLast (civilFromDays (t / 86400)).2.2 (by omega)
  refine ⟨c, ?_, hc2⟩
  rw [daySuffix_eq, List.getLast?_append, List.getLast?_append, hc1]
  rfl

theorem partitionName_ne_metadata (pfx : String) (t : Int) :
    partitionName pfx t ≠ metadataName := by
  intro h
  have hd := congrArg String.data h
  simp only [partitionName, String.data_append, strMk_data] at hd
  have hlast := congrArg List.getLast? hd
  obtain ⟨c, hc1, hc2⟩ := daySuffix_getLast t
  have hor : ((pfx.data ++ ("_").data) ++ daySuffix t).getLast? = some c := by
    rw [List.getLast?_append, hc1]
    rfl
  rw [hor] at hlast
  have hmeta : (metadataName.data).getLast? = some 'a' := by decide
  rw [hmeta] at hlast
  have hca : c = 'a' := Option.some.inj hlast
  rw [hca] at hc2
  exact absurd hc2 (by decide)

theorem partitionName_ne_of_day_lt (pfx : String) (t1 t2 : Int)
    (h : t1 / 86400 < t2 / 86400) : partitionName pfx t1 ≠ partitionName pfx t2 := by
  intro heq
  have hciv := (daySuffix_inj_iff t1 t2).mp ((partitionName_data pfx t1 t2).mp heq)
  have := ymdNum_lt_of_lt h
  rw [hciv] at this
  exact absurd this (lt_irrefl _)

theorem dayNameSfx_partitionName (pfx : String) (t : Int)
    (hlen : (daySuffix t).length = 8)
    (hdig : ∀ c ∈ daySuffix t, isDigitC c = true) :
    dayNameSfx pfx (partitionName pfx t) = some (daySuffix t) := by
  unfold dayNameSfx
  have hd : (partitionName pfx t).data = (pfx.data ++ ['_']) ++ daySuffix t := by
    simp only [partitionName, String.data_append, strMk_data]
  rw [hd, stripPfx_append]
  show (if (daySuffix t).length = 8 ∧ (daySuffix t).all isDigitC = true
    then some (daySuffix t) else none) = some (daySuffix t)
  rw [if_pos ⟨hlen, List.all_eq_true.mpr hdig⟩]

end LmdbVerify
namespace LmdbVerify

theorem openPartition_disk (n : String) (s : StoreState) :
    (openPartition n s).1.disk = s.disk := by
  unfold openPartition
  by_cases h1 : n = metadataName
  · rw [if_pos h1]
  · rw [if_neg h1]
    by_cases h2 : n ∈ s.partitions
    · rw [if_pos h2]
    · rw [if_neg h2]
      by_cases h3 : n ∈ s.disk
      · rw [if_pos h3]
      · rw [if_neg h3]

theorem bool_false_of_not_true : ∀ b : Bool, ¬(b = true) → b = false := by decide

theorem prune_foldl_mem (pfx : String) (cutoff : List Char) :
    ∀ (L : List String) (s : StoreState) (cache : List String),
      s.disk.Nodup → cache.Nodup →
      ((∀ x : String,
        x ∈ (L.foldl (pruneStep pfx cutoff) (s, cache)).1.disk ↔
          x ∈ s.disk ∧ ¬(x ∈ L ∧ droppedByPrune pfx cutoff x = true)) ∧
      (∀ x : String,
        x ∈ (L.foldl (pruneStep pfx cutoff) (s, cache)).2 ↔
          x ∈ cache ∧ ¬(x ∈ L ∧ droppedByPrune pfx cutoff x = true))) := by
  intro L
  induction L with
  | nil =>
    intro s cache _ _
    constructor <;> intro x <;> simp
  | cons n rest ih =>
    intro s cache hd hc
    by_cases hdrop : droppedByPrune pfx cutoff n = true
    · have h0 : pruneStep pfx cutoff (s, cache) n =
          (⟨((openPartition n s).1).disk.erase n, ((openPartition n s).1).partitions⟩,
           cache.erase n) := by
        unfold pruneStep
        rw [if_pos hdrop]
      have hstep : pruneStep pfx cutoff (s, cache) n =
          (⟨s.disk.erase n, ((openPartition n s).1).partitions⟩, cache.erase n) := by
        rw [h0, openPartition_disk]
      rw [List.foldl_cons, hstep]
      obtain ⟨ihd, ihc⟩ := ih ⟨s.disk.erase n, ((openPartition n s).1).partitions⟩
        (cache.erase n) (hd.erase n) (hc.erase n)
      constructor
      · intro x
        rw [ihd x]
        show x ∈ s.disk.erase n ∧ _ ↔ _
        rw [hd.mem_erase_iff]
        constructor
        · rintro ⟨⟨hne, hmem⟩, hnd⟩
          refine ⟨hmem, ?_⟩
          rintro ⟨hin, hdx⟩
          rcases List.mem_cons.mp hin with rfl | hin2
          · exact hne rfl
          · exact hnd ⟨hin2, hdx⟩
        · rintro ⟨hmem, hnd⟩
          by_cases hxn : x = n
          · subst hxn
            exact absurd ⟨List.mem_cons_self _ _, hdrop⟩ hnd
          · exact ⟨⟨hxn, hmem⟩,
              fun hcon => hnd ⟨List.mem_cons_of_mem _ hcon.1, hcon.2⟩⟩
      · intro x
        rw [ihc x]
        rw [hc.mem_erase_iff]
        constructor
        · rintro ⟨⟨hne, hmem⟩, hnd⟩
          refine ⟨hmem, ?_⟩
          rintro ⟨hin, hdx⟩
          rcases List.mem_cons.mp hin with rfl | hin2
          · exact hne rfl
          · exact hnd ⟨hin2, hdx⟩
        · rintro ⟨hmem, hnd⟩
          by_cases hxn : x = n
          · subst hxn
            exact absurd ⟨List.mem_cons_self _ _, hdrop⟩ hnd
          · exact ⟨⟨hxn, hmem⟩,
              fun hcon => hnd ⟨List.mem_cons_of_mem _ hcon.1, hcon.2⟩⟩
    · have hstep : pruneStep pfx cutoff (s, cache) n = (s, cache) := by
        unfold pruneStep
        rw [if_neg hdrop]
      rw [List.foldl_cons, hstep]
      obtain ⟨ihd, ihc⟩ := ih s cache hd hc
      have hsame : ∀ x : String,
          (x ∈ rest ∧ droppedByPrune pfx cutoff x = true) ↔
            (x ∈ n :: rest ∧ droppedByPrune pfx cutoff x = true) := by
        intro x
        constructor
        · rintro ⟨h1, h2⟩
          exact ⟨List.mem_cons_of_mem _ h1, h2⟩
        · rintro ⟨h1, h2⟩
          rcases List.mem_cons.mp h1 with rfl | h3
          · exact absurd h2 hdrop
          · exact ⟨h3, h2⟩
      constructor
      · intro x
        rw [ihd x, hsame x]
      · intro x
        rw [ihc x, hsame x]

end LmdbVerify
namespace LmdbVerify

/-- Claim C9: a prune pass drops exactly those listed partition names of
the form `<prefix>_<8-digit-day>` whose captured day suffix is
lexicographically below the cutoff suffix of today minus
`maxDaysRetention - 1` days, evicting each dropped name from the local
cache and touching nothing else; and in the concrete scenario with
`maxDaysRetention = 2` and buckets for days N-5 through N, the pass
removes exactly the buckets strictly older than day N-1, leaving the
buckets of days N-1 and N (and the reserved metadata partition) in the
store and the cache. -/
theorem pruneOldPartitions_spec (pfx : String) (nowSec N : Int)
    (hnow : nowSec / 86400 = N)
    (hy1 : 1000 ≤ (civilFromDays (N - 5)).1)
    (hy2 : (civilFromDays N).1 ≤ 9999) :
    (∀ (maxDays : Int) (s : StoreState) (cache : List String),
      s.disk.Nodup → cache.Nodup → 0 < maxDays →
      ((∀ x, x ∈ (pruneOldPartitions nowSec maxDays pfx s cache false).1.disk ↔
          x ∈ s.disk ∧ ¬(x ∈ listPartitions s ∧
            droppedByPrune pfx (daySuffix (nowSec - (maxDays - 1) * 86400)) x = true)) ∧
       (∀ x, x ∈ (pruneOldPartitions nowSec maxDays pfx s cache false).2 ↔
          x ∈ cache ∧ ¬(x ∈ listPartitions s ∧
            droppedByPrune pfx (daySuffix (nowSec - (maxDays - 1) * 86400)) x = true)))) ∧
    ((∀ x, x ∈ (pruneOldPartitions nowSec 2 pfx
        ⟨metadataName :: [partitionName pfx ((N - 5) * 86400),
          partitionName pfx ((N - 4) * 86400), partitionName pfx ((N - 3) * 86400),
          partitionName pfx ((N - 2) * 86400), partitionName pfx ((N - 1) * 86400),
          partitionName pfx (N * 86400)], []⟩
        [partitionName pfx ((N - 5) * 86400), partitionName pfx ((N - 4) * 86400),
          partitionName pfx ((N - 3) * 86400), partitionName pfx ((N - 2) * 86400),
          partitionName pfx ((N - 1) * 86400), partitionName pfx (N * 86400)]
        false).1.disk ↔
        (x = metadataName ∨ x = partitionName pfx ((N - 1) * 86400) ∨
          x = partitionName pfx (N * 86400))) ∧
     (∀ x, x ∈ (pruneOldPartitions nowSec 2 pfx
        ⟨metadataName :: [partitionName pfx ((N - 5) * 86400),
          partitionName pfx ((N - 4) * 86400), partitionName pfx ((N - 3) * 86400),
          partitionName pfx ((N - 2) * 86400), partitionName pfx ((N - 1) * 86400),
          partitionName pfx (N * 86400)], []⟩
        [partitionName pfx ((N - 5) * 86400), partitionName pfx ((N - 4) * 86400),
          partitionName pfx ((N - 3) * 86400), partitionName pfx ((N - 2) * 86400),
          partitionName pfx ((N - 1) * 86400), partitionName pfx (N * 86400)]
        false).2 ↔
        (x = partitionName pfx ((N - 1) * 86400) ∨
          x = partitionName pfx (N * 86400)))) := by
  have hgen : ∀ (maxDays : Int) (s : StoreState) (cache : List String),
      s.disk.Nodup → cache.Nodup → 0 < maxDays →
      ((∀ x, x ∈ (pruneOldPartitions nowSec maxDays pfx s cache false).1.disk ↔
          x ∈ s.disk ∧ ¬(x ∈ listPartitions s ∧
            droppedByPrune pfx (daySuffix (nowSec - (maxDays - 1) * 86400)) x = true)) ∧
       (∀ x, x ∈ (pruneOldPartitions nowSec maxDays pfx s cache false).2 ↔
          x ∈ cache ∧ ¬(x ∈ listPartitions s ∧
            droppedByPrune pfx (daySuffix (nowSec - (maxDays - 1) * 86400)) x = true))) := by
    intro maxDays s cache hdn hcn hpos
    have hcond : ¬((false = true) ∨ maxDays ≤ 0) := by
      simp only [Bool.false_eq_true, false_or]
      omega
    unfold pruneOldPartitions
    rw [if_neg hcond]
    exact prune_foldl_mem pfx (daySuffix (nowSec - (maxDays - 1) * 86400))
      (listPartitions s) s cache hdn hcn
  refine ⟨hgen, ?_⟩
  -- day-number bookkeeping for the six bucket timestamps
  have hdayk : ∀ k : Int, (k * 86400) / 86400 = k := by
    intro k
    omega
  have hyk : ∀ z : Int, N - 5 ≤ z → z ≤ N →
      1000 ≤ (civilFromDays z).1 ∧ (civilFromDays z).1 ≤ 9999 := by
    intro z h1 h2
    exact ⟨le_trans hy1 (civil_year_mono h1), le_trans (civil_year_mono h2) hy2⟩
  -- suffix facts for a bucket of day z in the window
  have hsfx : ∀ z : Int, N - 5 ≤ z → z ≤ N →
      dayNameSfx pfx (partitionName pfx (z * 86400)) = some (daySuffix (z * 86400)) := by
    intro z h1 h2
    obtain ⟨u1, u2⟩ := hyk z h1 h2
    exact dayNameSfx_partitionName pfx (z * 86400)
      (daySuffix_len8 _ (by rw [hdayk z]; exact u1) (by rw [hdayk z]; exact u2))
      (daySuffix_digits _ (by rw [hdayk z]; omega))
  have hcut : daySuffix (nowSec - (2 - 1) * 86400) = daySuffix ((N - 1) * 86400) :=
    daySuffix_day_eq (by omega)
  -- the drop decision for a bucket of day z: dropped iff z < N - 1
  have hdropz : ∀ z : Int, N - 5 ≤ z → z ≤ N →
      droppedByPrune pfx (daySuffix (nowSec - (2 - 1) * 86400))
        (partitionName pfx (z * 86400)) = (if z < N - 1 then true else false) := by
    intro z h1 h2
    obtain ⟨u1, u2⟩ := hyk z h1 h2
    obtain ⟨v1, v2⟩ := hyk (N - 1) (by omega) (by omega)
    unfold droppedByPrune
    rw [hsfx z h1 h2, hcut]
    have hiff := daySuffix_ltB (z * 86400) ((N - 1) * 86400)
      (by rw [hdayk z]; exact u1) (by rw [hdayk z]; exact u2)
      (by rw [hdayk (N - 1)]; exact v1) (by rw [hdayk (N - 1)]; exact v2)
    rw [hdayk z, hdayk (N - 1)] at hiff
    by_cases hz : z < N - 1
    · rw [if_pos hz]
      exact hiff.mpr hz
    · rw [if_neg hz]
      exact bool_false_of_not_true _ (fun hh => hz (hiff.mp hh))
  have hne : ∀ z1 z2 : Int, z1 < z2 →
      partitionName pfx (z1 * 86400) ≠ partitionName pfx (z2 * 86400) := by
    intro z1 z2 hz
    exact partitionName_ne_of_day_lt pfx _ _ (by rw [hdayk z1, hdayk z2]; exact hz)
  have hnm : ∀ z : Int, partitionName pfx (z * 86400) ≠ metadataName :=
    fun z => partitionName_ne_metadata pfx (z * 86400)
  -- the scenario store state
  have hnodupNames : [partitionName pfx ((N - 5) * 86400),
      partitionName pfx ((N - 4) * 86400), partitionName pfx ((N - 3) * 86400),
      partitionName pfx ((N - 2) * 86400), partitionName pfx ((N - 1) * 86400),
      partitionName pfx (N * 86400)].Nodup := by
    simp only [List.nodup_cons, List.mem_cons, List.mem_singleton, List.not_mem_nil,
      not_or, List.nodup_nil, and_true, or_false]
    refine ⟨⟨hne _ _ (by omega), hne _ _ (by omega), hne _ _ (by omega),
        hne _ _ (by omega), ?_⟩,
      ⟨hne _ _ (by omega), hne _ _ (by omega), hne _ _ (by omega), ?_⟩,
      ⟨hne _ _ (by omega), hne _ _ (by omega), ?_⟩,
      ⟨hne _ _ (by omega), ?_⟩, ?_⟩
    · have := hne (N - 5) N (by omega)
      simpa using this
    · have := hne (N - 4) N (by omega)
      simpa using this
    · have := hne (N - 3) N (by omega)
      simpa using this
    · have := hne (N - 2) N (by omega)
      simpa using this
    · have := hne (N - 1) N (by omega)
      simpa using this
  have hmetaNotIn : metadataName ∉ [partitionName pfx ((N - 5) * 86400),
      partitionName pfx ((N - 4) * 86400), partitionName pfx ((N - 3) * 86400),
      partitionName pfx ((N - 2) * 86400), partitionName pfx ((N - 1) * 86400),
      partitionName pfx (N * 86400)] := by
    intro hmem
    simp only [List.mem_cons, List.mem_singleton, List.not_mem_nil, or_false] at hmem
    rcases hmem with h | h | h | h | h | h <;> exact absurd h.symm (hnm _)
  have hdiskNodup : (metadataName :: [partitionName pfx ((N - 5) * 86400),
      partitionName pfx ((N - 4) * 86400), partitionName pfx ((N - 3) * 86400),
      partitionName pfx ((N - 2) * 86400), partitionName pfx ((N - 1) * 86400),
      partitionName pfx (N * 86400)]).Nodup :=
    List.nodup_cons.mpr ⟨hmetaNotIn, hnodupNames⟩
  obtain ⟨gd, gc⟩ := hgen 2
    ⟨metadataName :: [partitionName pfx ((N - 5) * 86400),
      partitionName pfx ((N - 4) * 86400), partitionName pfx ((N - 3) * 86400),
      partitionName pfx ((N - 2) * 86400), partitionName pfx ((N - 1) * 86400),
      partitionName pfx (N * 86400)], []⟩
    [partitionName pfx ((N - 5) * 86400), partitionName pfx ((N - 4) * 86400),
      partitionName pfx ((N - 3) * 86400), partitionName pfx ((N - 2) * 86400),
      partitionName pfx ((N - 1) * 86400), partitionName pfx (N * 86400)]
    hdiskNodup hnodupNames (by omega)
  have hmemList : ∀ x : String,
      x ∈ listPartitions ⟨metadataName :: [partitionName pfx ((N - 5) * 86400),
        partitionName pfx ((N - 4) * 86400), partitionName pfx ((N - 3) * 86400),
        partitionName pfx ((N - 2) * 86400), partitionName pfx ((N - 1) * 86400),
        partitionName pfx (N * 86400)], []⟩ ↔
      x ∈ [partitionName pfx ((N - 5) * 86400), partitionName pfx ((N - 4) * 86400),
        partitionName pfx ((N - 3) * 86400), partitionName pfx ((N - 2) * 86400),
        partitionName pfx ((N - 1) * 86400), partitionName pfx (N * 86400)] := by
    intro x
    simp only [listPartitions, List.mem_filter, decide_eq_true_eq]
    constructor
    · rintro ⟨hin, hne2⟩
      rcases List.mem_cons.mp hin with rfl | h2
      · exact absurd rfl hne2
      · exact h2
    · intro hin
      refine ⟨List.mem_cons_of_mem _ hin, ?_⟩
      simp only [List.mem_cons, List.mem_singleton, List.not_mem_nil, or_false] at hin
      rcases hin with rfl | rfl | rfl | rfl | rfl | rfl <;> exact hnm _
  have hdropTrue : ∀ z : Int, N - 5 ≤ z → z < N - 1 →
      droppedByPrune pfx (daySuffix (nowSec - (2 - 1) * 86400))
        (partitionName pfx (z * 86400)) = true := by
    intro z h1 h2
    rw [hdropz z h1 (by omega), if_pos h2]
  have hdropFalse : ∀ z : Int, N - 1 ≤ z → z ≤ N →
      droppedByPrune pfx (daySuffix (nowSec - (2 - 1) * 86400))
        (partitionName pfx (z * 86400)) = false := by
    intro z h1 h2
    rw [hdropz z (by omega) h2, if_neg (by omega)]
  constructor
  · intro x
    rw [gd x]
    constructor
    · rintro ⟨hxd, hnd⟩
      rcases List.mem_cons.mp hxd with rfl | hxn
      · exact Or.inl rfl
      · have hxlist := (hmemList x).mpr hxn
        simp only [List.mem_cons, List.mem_singleton, List.not_mem_nil, or_false] at hxn
        rcases hxn with rfl | rfl | rfl | rfl | rfl | rfl
        · exact absurd ⟨hxlist, hdropTrue (N - 5) (by omega) (by omega)⟩ hnd
        · exact absurd ⟨hxlist, hdropTrue (N - 4) (by omega) (by omega)⟩ hnd
        · exact absurd ⟨hxlist, hdropTrue (N - 3) (by omega) (by omega)⟩ hnd
        · exact absurd ⟨hxlist, hdropTrue (N - 2) (by omega) (by omega)⟩ hnd
        · exact Or.inr (Or.inl rfl)
        · exact Or.inr (Or.inr rfl)
    · rintro (rfl | rfl | rfl)
      · refine ⟨List.mem_cons_self _ _, ?_⟩
        rintro ⟨hin, _⟩
        exact absurd ((hmemList _).mp hin) hmetaNotIn
      · refine ⟨by simp, ?_⟩
        rintro ⟨_, hdx⟩
        rw [hdropFalse (N - 1) (by omega) (by omega)] at hdx
        exact absurd hdx (by decide)
      · refine ⟨by simp, ?_⟩
        rintro ⟨_, hdx⟩
        rw [hdropFalse N (by omega) (by omega)] at hdx
        exact absurd hdx (by decide)
  · intro x
    rw [gc x]
    constructor
    · rintro ⟨hxn, hnd⟩
      have hxlist := (hmemList x).mpr hxn
      simp only [List.mem_cons, List.mem_singleton, List.not_mem_nil, or_false] at hxn
      rcases hxn with rfl | rfl | rfl | rfl | rfl | rfl
      · exact absurd ⟨hxlist, hdropTrue (N - 5) (by omega) (by omega)⟩ hnd
      · exact absurd ⟨hxlist, hdropTrue (N - 4) (by omega) (by omega)⟩ hnd
      · exact absurd ⟨hxlist, hdropTrue (N - 3) (by omega) (by omega)⟩ hnd
      · exact absurd ⟨hxlist, hdropTrue (N - 2) (by omega) (by omega)⟩ hnd
      · exact Or.inl rfl
      · exact Or.inr rfl
    · rintro (rfl | rfl)
      · refine ⟨by simp, ?_⟩
        rintro ⟨_, hdx⟩
        rw [hdropFalse (N - 1) (by omega) (by omega)] at hdx
        exact absurd hdx (by decide)
      · refine ⟨by simp, ?_⟩
        rintro ⟨_, hdx⟩
        rw [hdropFalse N (by omega) (by omega)] at hdx
        exact absurd hdx (by decide)

end LmdbVerify
namespace LmdbVerify

theorem pruneOldPartitions_spec_witness :
    partitionName "logs" ((20341 - 5) * 86400) ∉
      (pruneOldPartitions (20341 * 86400) 2 "logs"
        ⟨metadataName :: [partitionName "logs" ((20341 - 5) * 86400),
          partitionName "logs" ((20341 - 4) * 86400),
          partitionName "logs" ((20341 - 3) * 86400),
          partitionName "logs" ((20341 - 2) * 86400),
          partitionName "logs" ((20341 - 1) * 86400),
          partitionName "logs" (20341 * 86400)], []⟩
        [partitionName "logs" ((20341 - 5) * 86400),
          partitionName "logs" ((20341 - 4) * 86400),
          partitionName "logs" ((20341 - 3) * 86400),
          partitionName "logs" ((20341 - 2) * 86400),
          partitionName "logs" ((20341 - 1) * 86400),
          partitionName "logs" (20341 * 86400)]
        false).1.disk ∧
    partitionName "logs" ((20341 - 1) * 86400) ∈
      (pruneOldPartitions (20341 * 86400) 2 "logs"
        ⟨metadataName :: [partitionName "logs" ((20341 - 5) * 86400),
          partitionName "logs" ((20341 - 4) * 86400),
          partitionName "logs" ((20341 - 3) * 86400),
          partitionName "logs" ((20341 - 2) * 86400),
          partitionName "logs" ((20341 - 1) * 86400),
          partitionName "logs" (20341 * 86400)], []⟩
        [partitionName "logs" ((20341 - 5) * 86400),
          partitionName "logs" ((20341 - 4) * 86400),
          partitionName "logs" ((20341 - 3) * 86400),
          partitionName "logs" ((20341 - 2) * 86400),
          partitionName "logs" ((20341 - 1) * 86400),
          partitionName "logs" (20341 * 86400)]
        false).1.disk ∧
    partitionName "logs" (20341 * 86400) ∈
      (pruneOldPartitions (20341 * 86400) 2 "logs"
        ⟨metadataName :: [partitionName "logs" ((20341 - 5) * 86400),
          partitionName "logs" ((20341 - 4) * 86400),
          partitionName "logs" ((20341 - 3) * 86400),
          partitionName "logs" ((20341 - 2) * 86400),
          partitionName "logs" ((20341 - 1) * 86400),
          partitionName "logs" (20341 * 86400)], []⟩
        [partitionName "logs" ((20341 - 5) * 86400),
          partitionName "logs" ((20341 - 4) * 86400),
          partitionName "logs" ((20341 - 3) * 86400),
          partitionName "logs" ((20341 - 2) * 86400),
          partitionName "logs" ((20341 - 1) * 86400),
          partitionName "logs" (20341 * 86400)]
        false).2 := by
  have h := pruneOldPartitions_spec "logs" (20341 * 86400) 20341
    (by decide) (by decide) (by decide)
  obtain ⟨hd, hc⟩ := h.2
  refine ⟨?_, ?_, ?_⟩
  · intro hmem
    rcases (hd _).mp hmem with h1 | h1 | h1
    · exact absurd h1 (by decide)
    · exact absurd h1 (by decide)
    · exact absurd h1 (by decide)
  · exact (hd _).mpr (Or.inr (Or.inl rfl))
  · exact (hc _).mpr (Or.inr rfl)

end LmdbVerify
